import Mathlib

/-!
Verification development for the placeholder-substitution and
template-materialization engine of the flutter_tdd_clean_architecture
scaffolding extension.

Strings are modeled as `List Char`.  The engine's primitive operation is
JavaScript's `String.prototype.replaceAll` with a literal search string:
one left-to-right pass, each non-overlapping occurrence replaced once,
inserted replacement text never re-scanned within that same pass.
-/

set_option maxHeartbeats 1000000
set_option maxRecDepth 100000

namespace TddScaffold

/-- Convert a Lean string literal to the character-list representation. -/
def str (s : String) : List Char := s.data

/-- headMatch p t : the pattern p is an initial segment of t (Boolean test). -/
def headMatch : List Char → List Char → Bool
  | [], _ => true
  | _ :: _, [] => false
  | c :: cs, d :: ds => c == d && headMatch cs ds

/-- hasSub p t : the pattern p occurs as a contiguous substring of t
(the semantics of JavaScript's String.prototype.includes). -/
def hasSub : List Char → List Char → Bool
  | p, [] => headMatch p []
  | p, c :: cs => headMatch p (c :: cs) || hasSub p cs

/-- bridgeB x y : some nonempty suffix of x is an initial segment of y. -/
def bridgeB : List Char → List Char → Bool
  | [], _ => false
  | c :: cs, y => headMatch (c :: cs) y || bridgeB cs y

/-- pfx p t : p is an initial segment of t. -/
def pfx (p t : List Char) : Prop := ∃ q, p ++ q = t

theorem headMatch_iff (p : List Char) : ∀ t, headMatch p t = true ↔ pfx p t := by
  induction p with
  | nil =>
    intro t
    simp [headMatch, pfx]
  | cons c cs ih =>
    intro t
    cases t with
    | nil =>
      simp [headMatch, pfx]
    | cons d ds =>
      simp only [headMatch, Bool.and_eq_true, beq_iff_eq, ih ds, pfx]
      constructor
      · rintro ⟨rfl, q, rfl⟩
        exact ⟨q, rfl⟩
      · rintro ⟨q, h⟩
        injection h with h1 h2
        exact ⟨h1, q, h2⟩

theorem headMatch_of_pfx {p t : List Char} (h : pfx p t) : headMatch p t = true :=
  (headMatch_iff p t).mpr h

theorem pfx_of_headMatch {p t : List Char} (h : headMatch p t = true) : pfx p t :=
  (headMatch_iff p t).mp h

theorem pfx_app_self (x y : List Char) : pfx x (x ++ y) := ⟨y, rfl⟩

theorem pfx_nil_elim {p : List Char} (h : pfx p []) : p = [] := by
  obtain ⟨q, hq⟩ := h
  cases p with
  | nil => rfl
  | cons c cs => simp at hq

theorem takeApp (x y : List Char) : (x ++ y).take x.length = x := by
  induction x with
  | nil => simp
  | cons c cs ih => simp [ih]

theorem dropApp (x y : List Char) : (x ++ y).drop x.length = y := by
  induction x with
  | nil => simp
  | cons c cs ih => simp [ih]

theorem dropAppLe (x y : List Char) : ∀ i, i ≤ x.length → (x ++ y).drop i = x.drop i ++ y := by
  induction x with
  | nil =>
    intro i hi
    have : i = 0 := Nat.le_zero.mp (by simpa using hi)
    simp [this]
  | cons c cs ih =>
    intro i hi
    cases i with
    | zero => simp
    | succ j =>
      simp only [List.cons_append, List.drop_succ_cons]
      exact ih j (Nat.le_of_succ_le_succ (by simpa using hi))

theorem pfx_le_app {p x y : List Char} (h : pfx p (x ++ y)) (hl : p.length ≤ x.length) :
    pfx p x := by
  induction p generalizing x with
  | nil => exact ⟨x, rfl⟩
  | cons a p' ih =>
    cases x with
    | nil => simp at hl
    | cons b x' =>
      obtain ⟨q, hq⟩ := h
      simp only [List.cons_append] at hq
      injection hq with h1 h2
      obtain ⟨q', hq'⟩ := ih ⟨q, h2⟩ (Nat.le_of_succ_le_succ (by simpa using hl))
      exact ⟨q', by simp [h1, hq']⟩

theorem app_pfx {p x y : List Char} (h : pfx p (x ++ y)) (hl : x.length ≤ p.length) :
    pfx x p := by
  induction x generalizing p with
  | nil => exact ⟨p, rfl⟩
  | cons b x' ih =>
    cases p with
    | nil => simp at hl
    | cons a p' =>
      obtain ⟨q, hq⟩ := h
      simp only [List.cons_append] at hq
      injection hq with h1 h2
      obtain ⟨q', hq'⟩ := ih ⟨q, h2⟩ (Nat.le_of_succ_le_succ (by simpa using hl))
      exact ⟨q', by simp [← h1, hq']⟩

theorem hasSub_iff (p : List Char) : ∀ t, hasSub p t = true ↔ ∃ a b, a ++ p ++ b = t := by
  intro t
  induction t with
  | nil =>
    rw [hasSub, headMatch_iff]
    constructor
    · intro h
      have hp := pfx_nil_elim h
      exact ⟨[], [], by simp [hp]⟩
    · rintro ⟨a, b, hab⟩
      simp only [List.append_eq_nil, List.append_assoc] at hab
      exact ⟨[], by simp [hab.2.1]⟩
  | cons c cs ih =>
    rw [hasSub]
    constructor
    · intro h
      rcases Bool.or_eq_true _ _ |>.mp h with hm | hrec
      · obtain ⟨q, hq⟩ := pfx_of_headMatch hm
        exact ⟨[], q, by simpa using hq⟩
      · obtain ⟨a, b, hab⟩ := ih.mp hrec
        exact ⟨c :: a, b, by simp [hab]⟩
    · rintro ⟨a, b, hab⟩
      cases a with
      | nil =>
        have : pfx p (c :: cs) := ⟨b, by simpa using hab⟩
        exact Bool.or_eq_true _ _ |>.mpr (Or.inl (headMatch_of_pfx this))
      | cons a0 a' =>
        simp only [List.cons_append] at hab
        injection hab with h1 h2
        exact Bool.or_eq_true _ _ |>.mpr (Or.inr (ih.mpr ⟨a', b, h2⟩))

theorem bridgeB_iff (y : List Char) :
    ∀ x, bridgeB x y = true ↔ ∃ w z, w ≠ [] ∧ z ++ w = x ∧ pfx w y := by
  intro x
  induction x with
  | nil =>
    rw [bridgeB]
    constructor
    · intro h; exact absurd h (by simp)
    · rintro ⟨w, z, hne, hzw, _⟩
      have := List.append_eq_nil.mp hzw
      exact absurd this.2 hne
  | cons c cs ih =>
    rw [bridgeB]
    constructor
    · intro h
      rcases Bool.or_eq_true _ _ |>.mp h with hm | hrec
      · exact ⟨c :: cs, [], by simp, by simp, pfx_of_headMatch hm⟩
      · obtain ⟨w, z, hne, hzw, hwy⟩ := ih.mp hrec
        exact ⟨w, c :: z, hne, by simp [hzw], hwy⟩
    · rintro ⟨w, z, hne, hzw, hwy⟩
      cases z with
      | nil =>
        have : w = c :: cs := by simpa using hzw
        subst this
        exact Bool.or_eq_true _ _ |>.mpr (Or.inl (headMatch_of_pfx hwy))
      | cons z0 z' =>
        simp only [List.cons_append] at hzw
        injection hzw with h1 h2
        exact Bool.or_eq_true _ _ |>.mpr (Or.inr (ih.mpr ⟨w, z', hne, h2, hwy⟩))

theorem hasSub_nil_left : ∀ t : List Char, hasSub [] t = true := by
  intro t
  cases t <;> simp [hasSub, headMatch]

theorem ne_nil_of_hasSub_false {s t : List Char} (h : hasSub s t = false) : s ≠ [] := by
  intro hs
  rw [hs, hasSub_nil_left] at h
  exact absurd h (by simp)

theorem hasSub_false_cons {p : List Char} {c : Char} {cs : List Char}
    (h : hasSub p (c :: cs) = false) :
    headMatch p (c :: cs) = false ∧ hasSub p cs = false := by
  rw [hasSub] at h
  exact ⟨by simpa using (Bool.or_eq_false_iff.mp h).1,
         by simpa using (Bool.or_eq_false_iff.mp h).2⟩

/-- Fuel-indexed scanner for the global replacement pass; the fuel only
serves to make the recursion structural, any fuel at least the text
length gives the same result. -/
def replFuel (s r : List Char) : Nat → List Char → List Char
  | _, [] => []
  | 0, c :: cs => c :: cs
  | fuel + 1, c :: cs =>
    if s ≠ [] ∧ headMatch s (c :: cs) = true then
      r ++ replFuel s r fuel (List.drop (s.length - 1) cs)
    else
      c :: replFuel s r fuel cs

/-- One global left-to-right literal replacement pass over a string for a
nonempty search pattern: each non-overlapping occurrence is replaced once,
scanning resumes after the inserted replacement, so inserted text is never
re-scanned within the pass. -/
def replAux (s r t : List Char) : List Char := replFuel s r t.length t

theorem replFuel_congr {s r : List Char} :
    ∀ n m t, t.length ≤ n → t.length ≤ m → replFuel s r n t = replFuel s r m t := by
  intro n
  induction n with
  | zero =>
    intro m t hn _
    have : t = [] := List.length_eq_zero.mp (Nat.le_zero.mp hn)
    subst this
    cases m <;> rfl
  | succ n ih =>
    intro m t hn hm
    cases t with
    | nil => cases m <;> rfl
    | cons c cs =>
      cases m with
      | zero => simp at hm
      | succ m' =>
        rw [replFuel, replFuel]
        by_cases hcond : s ≠ [] ∧ headMatch s (c :: cs) = true
        · rw [if_pos hcond, if_pos hcond]
          congr 1
          have hlen : (List.drop (s.length - 1) cs).length ≤ cs.length := by
            simp only [List.length_drop]
            omega
          simp only [List.length_cons] at hn hm
          exact ih m' _ (by omega) (by omega)
        · rw [if_neg hcond, if_neg hcond]
          congr 1
          simp only [List.length_cons] at hn hm
          exact ih m' cs (by omega) (by omega)

/-- JavaScript String.prototype.replaceAll with a literal search string.
The empty-pattern branch mirrors JavaScript's behavior of inserting the
replacement at every position.  ($-substitution patterns of JavaScript
replacement strings are not modeled; no replacement value in this code
base contains one.) -/
def jsReplaceAll (t s r : List Char) : List Char :=
  if s = [] then r ++ t.foldr (fun c acc => c :: (r ++ acc)) [] else replAux s r t

theorem replAux_nil (s r : List Char) : replAux s r [] = [] := rfl

theorem replAux_cons_pos {s : List Char} (r : List Char) (c : Char) (cs : List Char)
    (hs : s ≠ []) (hm : headMatch s (c :: cs) = true) :
    replAux s r (c :: cs) = r ++ replAux s r ((c :: cs).drop s.length) := by
  have hdrop : (c :: cs).drop s.length = List.drop (s.length - 1) cs := by
    cases s with
    | nil => exact absurd rfl hs
    | cons a as => simp [List.drop_succ_cons]
  rw [replAux, replAux, hdrop]
  show replFuel s r (cs.length + 1) (c :: cs) = _
  rw [replFuel, if_pos ⟨hs, hm⟩]
  congr 1
  apply replFuel_congr
  · simp only [List.length_drop]
    omega
  · exact le_rfl

theorem replAux_cons_neg {s : List Char} (r : List Char) (c : Char) (cs : List Char)
    (h : ¬(s ≠ [] ∧ headMatch s (c :: cs) = true)) :
    replAux s r (c :: cs) = c :: replAux s r cs := by
  rw [replAux, replAux]
  show replFuel s r (cs.length + 1) (c :: cs) = _
  rw [replFuel, if_neg h]

theorem replAux_id {s r : List Char} : ∀ t, hasSub s t = false → replAux s r t = t := by
  intro t
  induction t with
  | nil => intro _; exact replAux_nil s r
  | cons c cs ih =>
    intro h
    obtain ⟨hm, hrec⟩ := hasSub_false_cons h
    rw [replAux_cons_neg r c cs (by simp [hm]), ih hrec]

theorem jsReplaceAll_id {s r t : List Char} (h : hasSub s t = false) :
    jsReplaceAll t s r = t := by
  rw [jsReplaceAll, if_neg (ne_nil_of_hasSub_false h)]
  exact replAux_id t h

theorem bool_not_false {b : Bool} (h : ¬ b = false) : b = true := by
  cases b
  · exact absurd rfl h
  · rfl

theorem replAux_skip {s r : List Char} :
    ∀ k t, (∀ i, i < k → headMatch s (List.drop i t) = false) →
      replAux s r t = t.take k ++ replAux s r (t.drop k) := by
  intro k
  induction k with
  | zero => intro t _; simp
  | succ k ih =>
    intro t h
    cases t with
    | nil => simp [replAux_nil]
    | cons c cs =>
      have hm0 : headMatch s (c :: cs) = false := by simpa using h 0 (Nat.succ_pos k)
      rw [replAux_cons_neg r c cs (by simp [hm0])]
      rw [ih cs (fun i hi => by simpa using h (i + 1) (by omega))]
      simp

theorem chunkNoMatch {x s2 : List Char} (h1 : hasSub s2 x = false) (h2 : bridgeB x s2 = false) :
    ∀ u i, i < x.length → headMatch s2 ((x ++ u).drop i) = false := by
  intro u i hi
  by_contra hcon
  have hm := bool_not_false hcon
  rw [dropAppLe x u i (Nat.le_of_lt hi)] at hm
  have hσne : x.drop i ≠ [] := by
    intro hnil
    have hlen : (x.drop i).length = x.length - i := by simp
    rw [hnil] at hlen
    simp at hlen
    omega
  have hp : pfx s2 (x.drop i ++ u) := pfx_of_headMatch hm
  by_cases hlen : s2.length ≤ (x.drop i).length
  · have hps : pfx s2 (x.drop i) := pfx_le_app hp hlen
    obtain ⟨q, hq⟩ := hps
    have : hasSub s2 x = true := by
      apply (hasSub_iff s2 x).mpr
      refine ⟨x.take i, q, ?_⟩
      rw [List.append_assoc, hq, List.take_append_drop]
    exact absurd this (by simp [h1])
  · have hxp : pfx (x.drop i) s2 := app_pfx hp (Nat.le_of_not_le hlen)
    have : bridgeB x s2 = true :=
      (bridgeB_iff s2 x).mpr ⟨x.drop i, x.take i, hσne, List.take_append_drop i x, hxp⟩
    exact absurd this (by simp [h2])

theorem replAux_app_guard {s2 r2 x : List Char} (h1 : hasSub s2 x = false)
    (h2 : bridgeB x s2 = false) (u : List Char) :
    replAux s2 r2 (x ++ u) = x ++ replAux s2 r2 u := by
  rw [replAux_skip x.length (x ++ u) (fun i hi => chunkNoMatch h1 h2 u i hi)]
  rw [takeApp, dropApp]

theorem tokPfxBackAux {s1 r1 s2 : List Char} (h1 : hasSub r1 s2 = false)
    (h2 : bridgeB s2 r1 = false) :
    ∀ n u, u.length ≤ n → ∀ σ, σ ≠ [] → (∃ z, z ++ σ = s2) →
      pfx σ (replAux s1 r1 u) → pfx σ u := by
  intro n
  induction n with
  | zero =>
    intro u hu σ hσ _ hp
    have hnil : u = [] := List.length_eq_zero.mp (Nat.le_zero.mp hu)
    subst hnil
    rw [replAux_nil] at hp
    exact absurd (pfx_nil_elim hp) hσ
  | succ n ih =>
    intro u hu σ hσ hsfx hp
    cases u with
    | nil =>
      rw [replAux_nil] at hp
      exact absurd (pfx_nil_elim hp) hσ
    | cons c cs =>
      by_cases hcond : s1 ≠ [] ∧ headMatch s1 (c :: cs) = true
      · rw [replAux_cons_pos r1 c cs hcond.1 hcond.2] at hp
        by_cases hlen : σ.length ≤ r1.length
        · have hps : pfx σ r1 := pfx_le_app hp hlen
          obtain ⟨z, hz⟩ := hsfx
          have : bridgeB s2 r1 = true := (bridgeB_iff r1 s2).mpr ⟨σ, z, hσ, hz, hps⟩
          exact absurd this (by simp [h2])
        · have hr1p : pfx r1 σ := app_pfx hp (Nat.le_of_not_le hlen)
          obtain ⟨q, hq⟩ := hr1p
          obtain ⟨z, hz⟩ := hsfx
          have : hasSub r1 s2 = true := by
            apply (hasSub_iff r1 s2).mpr
            refine ⟨z, q, ?_⟩
            rw [List.append_assoc, hq, hz]
          exact absurd this (by simp [h1])
      · rw [replAux_cons_neg r1 c cs hcond] at hp
        obtain ⟨q, hq⟩ := hp
        cases σ with
        | nil => exact absurd rfl hσ
        | cons e σ' =>
          simp only [List.cons_append] at hq
          injection hq with he hq'
          cases σ' with
          | nil => exact ⟨cs, by simp [he]⟩
          | cons f σ'' =>
            obtain ⟨z, hz⟩ := hsfx
            have hrec : pfx (f :: σ'') cs := by
              apply ih cs (by simpa using Nat.le_of_succ_le_succ hu) (f :: σ'') (by simp)
                ⟨z ++ [e], by simp [← hz]⟩ ⟨q, hq'⟩
            obtain ⟨q2, hq2⟩ := hrec
            exact ⟨q2, by simp [he, hq2]⟩

theorem tokPfxBack {s1 r1 s2 : List Char} (h1 : hasSub r1 s2 = false)
    (h2 : bridgeB s2 r1 = false) (u σ : List Char) (hσ : σ ≠ [])
    (hsfx : ∃ z, z ++ σ = s2) (hp : pfx σ (replAux s1 r1 u)) : pfx σ u :=
  tokPfxBackAux h1 h2 u.length u le_rfl σ hσ hsfx hp

theorem headMatch_preserved {s1 r1 s2 : List Char} (h1 : hasSub r1 s2 = false)
    (h2 : bridgeB s2 r1 = false) {c : Char} {cs : List Char}
    (hm : headMatch s2 (c :: cs) = false) :
    headMatch s2 (c :: replAux s1 r1 cs) = false := by
  by_contra hcon
  have hmt := bool_not_false hcon
  obtain ⟨q, hq⟩ := pfx_of_headMatch hmt
  cases s2 with
  | nil => simp [headMatch] at hm
  | cons e s2' =>
    simp only [List.cons_append] at hq
    injection hq with he hq'
    cases s2' with
    | nil => simp [headMatch, he] at hm
    | cons f s2'' =>
      have hback : pfx (f :: s2'') cs :=
        tokPfxBack h1 h2 cs (f :: s2'') (by simp) ⟨[e], by simp⟩ ⟨q, hq'⟩
      have : headMatch (e :: f :: s2'') (c :: cs) = true := by
        apply headMatch_of_pfx
        obtain ⟨q2, hq2⟩ := hback
        exact ⟨q2, by simp [he, hq2]⟩
      exact absurd this (by simp [hm])

theorem hasSub_app_false {s x y : List Char} (hx : hasSub s x = false)
    (hb : bridgeB x s = false) (hy : hasSub s y = false) : hasSub s (x ++ y) = false := by
  induction x with
  | nil => simpa using hy
  | cons c cs ih =>
    have hx' := hasSub_false_cons hx
    rw [bridgeB] at hb
    have hb' : bridgeB cs s = false := by
      cases hor : bridgeB cs s
      · rfl
      · rw [hor] at hb; simp at hb
    have hmCx : headMatch (c :: cs) s = false := by
      cases hor : headMatch (c :: cs) s
      · rfl
      · rw [hor] at hb; simp at hb
    rw [List.cons_append, hasSub]
    have hfirst : headMatch s (c :: (cs ++ y)) = false := by
      by_contra hcon
      have hmt := bool_not_false hcon
      have hp : pfx s ((c :: cs) ++ y) := by
        rw [List.cons_append]
        exact pfx_of_headMatch hmt
      by_cases hlen : s.length ≤ (c :: cs).length
      · have : pfx s (c :: cs) := pfx_le_app hp hlen
        exact absurd (headMatch_of_pfx this) (by simp [hx'.1])
      · have : pfx (c :: cs) s := app_pfx hp (Nat.le_of_not_le hlen)
        exact absurd (headMatch_of_pfx this) (by simp [hmCx])
    rw [hfirst, ih hx'.2 hb']
    rfl

theorem replAux_elimAux {s r : List Char} (h1 : hasSub s r = false) (h2 : hasSub r s = false)
    (h3 : bridgeB r s = false) (h4 : bridgeB s r = false) :
    ∀ n t, t.length ≤ n → hasSub s (replAux s r t) = false := by
  have hsne : s ≠ [] := ne_nil_of_hasSub_false h1
  intro n
  induction n with
  | zero =>
    intro t ht
    have hnil : t = [] := List.length_eq_zero.mp (Nat.le_zero.mp ht)
    subst hnil
    rw [replAux_nil, hasSub]
    cases s with
    | nil => exact absurd rfl hsne
    | cons a as => rfl
  | succ n ih =>
    intro t ht
    cases t with
    | nil =>
      rw [replAux_nil, hasSub]
      cases s with
      | nil => exact absurd rfl hsne
      | cons a as => rfl
    | cons c cs =>
      by_cases hcond : s ≠ [] ∧ headMatch s (c :: cs) = true
      · rw [replAux_cons_pos r c cs hcond.1 hcond.2]
        apply hasSub_app_false h1 h3
        apply ih
        have hs1 : 1 ≤ s.length := by
          cases s with
          | nil => exact absurd rfl hsne
          | cons a as => simp
        have hlen : ((c :: cs).drop s.length).length = (c :: cs).length - s.length := by simp
        rw [hlen]
        simp only [List.length_cons] at ht ⊢
        omega
      · rw [replAux_cons_neg r c cs hcond]
        have hm : headMatch s (c :: cs) = false := by
          rcases not_and_or.mp hcond with h | h
          · exact absurd hsne (by simpa using h)
          · cases hor : headMatch s (c :: cs)
            · rfl
            · exact absurd hor h
        rw [hasSub]
        rw [headMatch_preserved h2 h4 hm]
        rw [ih cs (by simpa using Nat.le_of_succ_le_succ ht)]
        rfl

theorem replAux_elim {s r : List Char} (h1 : hasSub s r = false) (h2 : hasSub r s = false)
    (h3 : bridgeB r s = false) (h4 : bridgeB s r = false) (t : List Char) :
    hasSub s (replAux s r t) = false :=
  replAux_elimAux h1 h2 h3 h4 t.length t le_rfl

theorem pfx_pfx {p q t : List Char} (hp : pfx p t) (hq : pfx q t)
    (hl : p.length ≤ q.length) : pfx p q := by
  obtain ⟨b, hb⟩ := hq
  rw [← hb] at hp
  exact pfx_le_app hp hl

theorem hasSub_of_pfx {p t : List Char} (h : pfx p t) : hasSub p t = true := by
  obtain ⟨q, hq⟩ := h
  exact (hasSub_iff p t).mpr ⟨[], q, by simpa using hq⟩

theorem replAux_app_match {s r : List Char} (hs : s ≠ []) (X : List Char) :
    replAux s r (s ++ X) = r ++ replAux s r X := by
  cases s with
  | nil => exact absurd rfl hs
  | cons a as =>
    have hm : headMatch (a :: as) (a :: (as ++ X)) = true := by
      have := headMatch_of_pfx (pfx_app_self (a :: as) X)
      simpa using this
    rw [List.cons_append, replAux_cons_pos r a (as ++ X) hs hm]
    congr 1
    rw [← List.cons_append]
    have := dropApp (a :: as) X
    rw [this]

theorem replAux_commAux {s1 r1 s2 r2 : List Char}
    (hS12 : hasSub s1 s2 = false) (hS21 : hasSub s2 s1 = false)
    (hB12 : bridgeB s1 s2 = false) (hB21 : bridgeB s2 s1 = false)
    (hG1b : hasSub s2 r1 = false) (hG1a : hasSub r1 s2 = false)
    (hG1c : bridgeB r1 s2 = false) (hG1d : bridgeB s2 r1 = false)
    (hG2b : hasSub s1 r2 = false) (hG2a : hasSub r2 s1 = false)
    (hG2c : bridgeB r2 s1 = false) (hG2d : bridgeB s1 r2 = false) :
    ∀ n t, t.length ≤ n →
      replAux s2 r2 (replAux s1 r1 t) = replAux s1 r1 (replAux s2 r2 t) := by
  have hs1ne : s1 ≠ [] := ne_nil_of_hasSub_false hS12
  have hs2ne : s2 ≠ [] := ne_nil_of_hasSub_false hS21
  have hs1len : 1 ≤ s1.length := by
    cases s1 with
    | nil => exact absurd rfl hs1ne
    | cons a as => simp
  have hs2len : 1 ≤ s2.length := by
    cases s2 with
    | nil => exact absurd rfl hs2ne
    | cons a as => simp
  intro n
  induction n with
  | zero =>
    intro t ht
    have hnil : t = [] := List.length_eq_zero.mp (Nat.le_zero.mp ht)
    subst hnil
    rw [replAux_nil, replAux_nil, replAux_nil]
  | succ n ih =>
    intro t ht
    cases t with
    | nil => rw [replAux_nil, replAux_nil, replAux_nil]
    | cons c cs =>
      by_cases hm1 : headMatch s1 (c :: cs) = true
      · by_cases hm2 : headMatch s2 (c :: cs) = true
        · -- both tokens match at the head: contradicts token independence
          exfalso
          have hp1 := pfx_of_headMatch hm1
          have hp2 := pfx_of_headMatch hm2
          by_cases hlen : s1.length ≤ s2.length
          · exact absurd (hasSub_of_pfx (pfx_pfx hp1 hp2 hlen)) (by simp [hS12])
          · exact absurd (hasSub_of_pfx (pfx_pfx hp2 hp1 (Nat.le_of_not_le hlen)))
              (by simp [hS21])
        · -- rule 1 matches at the head, rule 2 does not
          have hm2f : headMatch s2 (c :: cs) = false := by
            cases hor : headMatch s2 (c :: cs)
            · rfl
            · exact absurd hor hm2
          obtain ⟨q, hq⟩ := pfx_of_headMatch hm1
          have hq2 : (c :: cs).drop s1.length = q := by rw [← hq, dropApp]
          have hqlen : q.length ≤ n := by
            have := congrArg List.length hq
            simp only [List.length_append, List.length_cons] at this
            simp only [List.length_cons] at ht
            omega
          -- left side
          rw [replAux_cons_pos r1 c cs hs1ne hm1, hq2]
          rw [replAux_app_guard hG1b hG1c]
          -- right side: no s2 match starts within the s1 occurrence
          have hskip : replAux s2 r2 (c :: cs) =
              (c :: cs).take s1.length ++ replAux s2 r2 ((c :: cs).drop s1.length) := by
            apply replAux_skip
            intro i hi
            rw [← hq]
            exact chunkNoMatch hS21 hB12 q i hi
          have htake : (c :: cs).take s1.length = s1 := by rw [← hq, takeApp]
          rw [hskip, htake, hq2]
          rw [replAux_app_match hs1ne]
          rw [ih q hqlen]
      · by_cases hm2 : headMatch s2 (c :: cs) = true
        · -- rule 2 matches at the head, rule 1 does not
          have hm1f : headMatch s1 (c :: cs) = false := by
            cases hor : headMatch s1 (c :: cs)
            · rfl
            · exact absurd hor hm1
          obtain ⟨q, hq⟩ := pfx_of_headMatch hm2
          have hq2 : (c :: cs).drop s2.length = q := by rw [← hq, dropApp]
          have hqlen : q.length ≤ n := by
            have := congrArg List.length hq
            simp only [List.length_append, List.length_cons] at this
            simp only [List.length_cons] at ht
            omega
          rw [replAux_cons_pos r2 c cs hs2ne hm2, hq2]
          rw [replAux_app_guard hG2b hG2c]
          have hskip : replAux s1 r1 (c :: cs) =
              (c :: cs).take s2.length ++ replAux s1 r1 ((c :: cs).drop s2.length) := by
            apply replAux_skip
            intro i hi
            rw [← hq]
            exact chunkNoMatch hS12 hB21 q i hi
          have htake : (c :: cs).take s2.length = s2 := by rw [← hq, takeApp]
          rw [hskip, htake, hq2]
          rw [replAux_app_match hs2ne]
          rw [ih q hqlen]
        · -- neither rule matches at the head
          have hm1f : headMatch s1 (c :: cs) = false := by
            cases hor : headMatch s1 (c :: cs)
            · rfl
            · exact absurd hor hm1
          have hm2f : headMatch s2 (c :: cs) = false := by
            cases hor : headMatch s2 (c :: cs)
            · rfl
            · exact absurd hor hm2
          have hcs : cs.length ≤ n := by
            simp only [List.length_cons] at ht
            omega
          rw [replAux_cons_neg r1 c cs (by simp [hm1f])]
          rw [replAux_cons_neg r2 c cs (by simp [hm2f])]
          rw [replAux_cons_neg r2 c (replAux s1 r1 cs)
            (by simp [headMatch_preserved hG1a hG1d hm2f])]
          rw [replAux_cons_neg r1 c (replAux s2 r2 cs)
            (by simp [headMatch_preserved hG2a hG2d hm1f])]
          rw [ih cs hcs]

theorem replAux_comm {s1 r1 s2 r2 : List Char}
    (hS12 : hasSub s1 s2 = false) (hS21 : hasSub s2 s1 = false)
    (hB12 : bridgeB s1 s2 = false) (hB21 : bridgeB s2 s1 = false)
    (hG1b : hasSub s2 r1 = false) (hG1a : hasSub r1 s2 = false)
    (hG1c : bridgeB r1 s2 = false) (hG1d : bridgeB s2 r1 = false)
    (hG2b : hasSub s1 r2 = false) (hG2a : hasSub r2 s1 = false)
    (hG2c : bridgeB r2 s1 = false) (hG2d : bridgeB s1 r2 = false) (t : List Char) :
    replAux s2 r2 (replAux s1 r1 t) = replAux s1 r1 (replAux s2 r2 t) :=
  replAux_commAux hS12 hS21 hB12 hB21 hG1b hG1a hG1c hG1d hG2b hG2a hG2c hG2d
    t.length t le_rfl

/-! ### Model of the change-case library (v4) used by tools.ts

The source imports camelCase, pascalCase and snakeCase from the npm
package change-case.  That library's noCase pipeline is: two splitting
regex passes that insert a NUL separator, a strip pass that turns every
run of non-alphanumeric characters into one separator, trimming of
leading/trailing separators, then a per-word transform joined with a
delimiter. -/

def sepC : Char := '\x00'

def isAsciiUpper (c : Char) : Bool := 65 ≤ c.toNat && c.toNat ≤ 90

def isAsciiLower (c : Char) : Bool := 97 ≤ c.toNat && c.toNat ≤ 122

def isDigitC (c : Char) : Bool := 48 ≤ c.toNat && c.toNat ≤ 57

def isAlnumC (c : Char) : Bool := isAsciiUpper c || isAsciiLower c || isDigitC c

/-- First split pass of change-case's noCase: the global regex
([a-z0-9])([A-Z]) inserts a separator inside every lower/digit→upper
pair.  Because the two character classes are disjoint, the regex's
consumption of matched pairs never hides a later match, so a sliding
pairwise scan is equivalent. -/
def splitPass1 : List Char → List Char
  | [] => []
  | [c] => [c]
  | c :: d :: rest =>
    if (isAsciiLower c || isDigitC c) && isAsciiUpper d then
      c :: sepC :: splitPass1 (d :: rest)
    else
      c :: splitPass1 (d :: rest)

/-- Second split pass: the global regex ([A-Z])([A-Z][a-z]) separates an
uppercase run from a following capitalized word; again the sliding scan
is equivalent because no two matches can overlap. -/
def splitPass2 : List Char → List Char
  | [] => []
  | [a] => [a]
  | [a, b] => [a, b]
  | a :: b :: c :: rest =>
    if isAsciiUpper a && isAsciiUpper b && isAsciiLower c then
      a :: sepC :: splitPass2 (b :: c :: rest)
    else
      a :: splitPass2 (b :: c :: rest)

/-- Strip pass of noCase: the global case-insensitive regex [^A-Z0-9]+
replaces every maximal run of non-alphanumeric characters (including the
separators inserted by the split passes) by a single separator.  The run
collapsing is performed by merging with the following stripped tail. -/
def stripJunk : List Char → List Char
  | [] => []
  | c :: cs =>
    if isAlnumC c then c :: stripJunk cs
    else
      match stripJunk cs with
      | [] => [sepC]
      | d :: ds => if d = sepC then d :: ds else sepC :: d :: ds

/-- Remove the trailing run of separators (the end-trimming loop of
noCase). -/
def dropTrailSep : List Char → List Char
  | [] => []
  | c :: cs =>
    match dropTrailSep cs with
    | [] => if c == sepC then [] else [c]
    | r :: rs => c :: r :: rs

/-- Trim separators from both ends (the two trimming loops of noCase). -/
def trimSep (l : List Char) : List Char :=
  (dropTrailSep l).dropWhile (fun c => c == sepC)

/-- JavaScript String.prototype.split on the separator character. -/
def splitSep : List Char → List (List Char)
  | [] => [[]]
  | c :: cs =>
    if c == sepC then [] :: splitSep cs
    else
      match splitSep cs with
      | [] => [[c]]
      | w :: ws => (c :: w) :: ws

/-- The word list that change-case's noCase computes for an input. -/
def wordsOf (s : List Char) : List (List Char) :=
  splitSep (trimSep (stripJunk (splitPass2 (splitPass1 s))))

/-- ASCII model of JavaScript String.prototype.toLowerCase. -/
def jsToLowerCase (l : List Char) : List Char := l.map Char.toLower

/-- ASCII model of JavaScript String.prototype.toUpperCase. -/
def jsToUpperCase (l : List Char) : List Char := l.map Char.toUpper

/-- change-case's pascalCaseTransform: capitalize the word's first
character, lowercase the rest; a digit-initial word at index > 0 is
prefixed with an underscore. -/
def pascalCaseTransform (w : List Char) (i : Nat) : List Char :=
  match w with
  | [] => []
  | c :: cs =>
    if decide (0 < i) && isDigitC c then '_' :: c :: jsToLowerCase cs
    else Char.toUpper c :: jsToLowerCase cs

/-- change-case's camelCaseTransform: the first word is fully
lowercased, later words use pascalCaseTransform. -/
def camelCaseTransform (w : List Char) (i : Nat) : List Char :=
  if i = 0 then jsToLowerCase w else pascalCaseTransform w i

def mapWithIdx (f : List Char → Nat → List Char) : Nat → List (List Char) → List (List Char)
  | _, [] => []
  | i, w :: ws => f w i :: mapWithIdx f (i + 1) ws

/-- JavaScript Array.prototype.join with a delimiter string. -/
def joinDelim (d : List Char) : List (List Char) → List Char
  | [] => []
  | [w] => w
  | w :: ws => w ++ d ++ joinDelim d ws

/-- change-case snakeCase: words lowercased, joined with underscores. -/
def snakeCase (s : List Char) : List Char :=
  joinDelim ['_'] (mapWithIdx (fun w _ => jsToLowerCase w) 0 (wordsOf s))

/-- change-case pascalCase. -/
def pascalCase (s : List Char) : List Char :=
  joinDelim [] (mapWithIdx pascalCaseTransform 0 (wordsOf s))

/-- change-case camelCase. -/
def camelCase (s : List Char) : List Char :=
  joinDelim [] (mapWithIdx camelCaseTransform 0 (wordsOf s))

/-! ### src/utils/tools.ts : String.prototype.replaceName -/

/-- String.prototype.replaceName from src/utils/tools.ts.  The case
transform is selected by substring inspection (searchTerm.includes) of
the whole token text; every firing branch performs a global replaceAll
with the transformed value, and a final global replaceAll with the raw
value always runs. -/
def replaceName (targetText searchTerm replaceFor : List Char) : List Char :=
  let t1 := if hasSub (str "lowerCase") searchTerm then
      jsReplaceAll targetText searchTerm (jsToLowerCase replaceFor) else targetText
  let t2 := if hasSub (str "upperCase") searchTerm then
      jsReplaceAll t1 searchTerm (jsToUpperCase replaceFor) else t1
  let t3 := if hasSub (str "snakeCase") searchTerm then
      jsReplaceAll t2 searchTerm (snakeCase replaceFor) else t2
  let t4 := if hasSub (str "pascalCase") searchTerm then
      jsReplaceAll t3 searchTerm (pascalCase replaceFor) else t3
  let t5 := if hasSub (str "camelCase") searchTerm then
      jsReplaceAll t4 searchTerm (camelCase replaceFor) else t4
  jsReplaceAll t5 searchTerm replaceFor

/-- Literal text of the identity placeholder token for a variable name. -/
def tokOf (key : List Char) : List Char := str "\x7b\x7b" ++ key ++ str "\x7d\x7d"

/-- Literal text of a case-styled placeholder token for a variable name. -/
def tokStyled (key lbl : List Char) : List Char :=
  str "\x7b\x7b" ++ key ++ '.' :: lbl ++ str "\x7d\x7d"

/-! ### src/commands/create_initials.ts -/

/-- replacePlaceholdersInContent: for each binding, in order, apply
replaceName for the identity token and then its five case-styled
variants. -/
def replacePlaceholdersInContent (content : List Char)
    (placeholders : List (List Char × List Char)) : List Char :=
  placeholders.foldl (fun result kv =>
    let r1 := replaceName result (tokOf kv.1) kv.2
    let r2 := replaceName r1 (tokStyled kv.1 (str "lowerCase")) kv.2
    let r3 := replaceName r2 (tokStyled kv.1 (str "upperCase")) kv.2
    let r4 := replaceName r3 (tokStyled kv.1 (str "snakeCase")) kv.2
    let r5 := replaceName r4 (tokStyled kv.1 (str "pascalCase")) kv.2
    replaceName r5 (tokStyled kv.1 (str "camelCase")) kv.2) content

/-- fixDartImports: the global regex replace of the literal text
package:gymtor/ by package:<packageName>/. -/
def fixDartImports (content packageName : List Char) : List Char :=
  jsReplaceAll content (str "package:gymtor/") (str "package:" ++ packageName ++ str "/")

/-- A node of the template file tree walked by getAllTemplateFiles. -/
inductive FsEntry where
  | file (nm : List Char)
  | dir (nm : List Char) (children : List FsEntry)

/-- JavaScript String.prototype.endsWith. -/
def endsWith (sfxStr l : List Char) : Bool := headMatch sfxStr.reverse l.reverse

/-- Body of getAllTemplateFiles on the entries of an existing directory:
files whose names end in .template are collected with their full path,
directories are recursed into unconditionally. -/
def getAllT : List Char → List FsEntry → List (List Char)
  | _, [] => []
  | p, .file nm :: rest =>
    (if endsWith (str ".template") nm then [p ++ '/' :: nm] else []) ++ getAllT p rest
  | p, .dir nm cs :: rest => getAllT (p ++ '/' :: nm) cs ++ getAllT p rest

/-- Every file of the tree with its full path and its bare name,
regardless of suffix (specification-side enumeration used to state what
the walker yields). -/
def allFilesT : List Char → List FsEntry → List (List Char × List Char)
  | _, [] => []
  | p, .file nm :: rest => (p ++ '/' :: nm, nm) :: allFilesT p rest
  | p, .dir nm cs :: rest => allFilesT (p ++ '/' :: nm) cs ++ allFilesT p rest

/-- getAllTemplateFiles: a non-existent directory (fs = none) returns the
empty list without error; an existing one is walked recursively. -/
def getAllTemplateFiles (dirPath : List Char) (fs : Option (List FsEntry)) : List (List Char) :=
  match fs with
  | none => []
  | some entries => getAllT dirPath entries

/-- Control skeleton of copyInitialTemplatesFromFolder: each walked
template is processed inside a try/catch; success increments the per-run
count, failure is reported for that artifact and the loop continues with
the remaining templates.  The abstract process function returns none when
reading, rewriting or writing the artifact throws. -/
def copyInitialTemplatesFromFolder (process : List Char → Option (List Char)) :
    List (List Char) → Nat × List (List Char)
  | [] => (0, [])
  | f :: fs =>
    let rest := copyInitialTemplatesFromFolder process fs
    match process f with
    | some _ => (rest.1 + 1, rest.2)
    | none => (rest.1, f :: rest.2)

/-! ### src/commands/create_usecase.ts -/

/-- The ordered token/value pairs that createUsecase applies with
replaceName: identity tokens for the five variables, then the lowerCase,
upperCase, snakeCase, pascalCase and camelCase variants, in source
order. -/
def usecaseRules (featureName clickedFolder usecaseName packageName rootFolder : List Char) :
    List (List Char × List Char) :=
  [(tokOf (str "feature_name"), featureName),
   (tokOf (str "custom_folder"), clickedFolder),
   (tokOf (str "usecase_name"), usecaseName),
   (tokOf (str "package_name"), packageName),
   (tokOf (str "root_folder"), rootFolder),
   (tokStyled (str "feature_name") (str "lowerCase"), featureName),
   (tokStyled (str "custom_folder") (str "lowerCase"), clickedFolder),
   (tokStyled (str "usecase_name") (str "lowerCase"), usecaseName),
   (tokStyled (str "package_name") (str "lowerCase"), packageName),
   (tokStyled (str "root_folder") (str "lowerCase"), rootFolder),
   (tokStyled (str "feature_name") (str "upperCase"), featureName),
   (tokStyled (str "custom_folder") (str "upperCase"), clickedFolder),
   (tokStyled (str "usecase_name") (str "upperCase"), usecaseName),
   (tokStyled (str "package_name") (str "upperCase"), packageName),
   (tokStyled (str "root_folder") (str "upperCase"), rootFolder),
   (tokStyled (str "feature_name") (str "snakeCase"), featureName),
   (tokStyled (str "custom_folder") (str "snakeCase"), clickedFolder),
   (tokStyled (str "usecase_name") (str "snakeCase"), usecaseName),
   (tokStyled (str "package_name") (str "snakeCase"), packageName),
   (tokStyled (str "root_folder") (str "snakeCase"), rootFolder),
   (tokStyled (str "feature_name") (str "pascalCase"), featureName),
   (tokStyled (str "custom_folder") (str "pascalCase"), clickedFolder),
   (tokStyled (str "usecase_name") (str "pascalCase"), usecaseName),
   (tokStyled (str "package_name") (str "pascalCase"), packageName),
   (tokStyled (str "root_folder") (str "pascalCase"), rootFolder),
   (tokStyled (str "feature_name") (str "camelCase"), featureName),
   (tokStyled (str "custom_folder") (str "camelCase"), clickedFolder),
   (tokStyled (str "usecase_name") (str "camelCase"), usecaseName),
   (tokStyled (str "package_name") (str "camelCase"), packageName),
   (tokStyled (str "root_folder") (str "camelCase"), rootFolder)]

/-- Apply a list of (searchTerm, replaceFor) pairs left to right with
replaceName, as the chained method calls in the source do. -/
def applyRules (rules : List (List Char × List Char)) (text : List Char) : List Char :=
  rules.foldl (fun acc sr => replaceName acc sr.1 sr.2) text

/-- The destination path createUsecase computes for a template path: the
thirty chained replaceName calls followed by replaceAll(".template",
".dart"). -/
def usecasePathRewrite
    (element featureName clickedFolder usecaseName packageName rootFolder : List Char) :
    List Char :=
  jsReplaceAll
    (applyRules (usecaseRules featureName clickedFolder usecaseName packageName rootFolder)
      element)
    (str ".template") (str ".dart")

/-- The content createUsecase writes for a template's content: the same
thirty chained replaceName calls (no suffix replacement). -/
def usecaseContentRewrite
    (content featureName clickedFolder usecaseName packageName rootFolder : List Char) :
    List Char :=
  applyRules (usecaseRules featureName clickedFolder usecaseName packageName rootFolder) content

/-- createUsecase's materialization of a batch of (template path,
template content) pairs: one output file per template, at the rewritten
path, with the rewritten content. -/
def createUsecaseOutputs (templates : List (List Char × List Char))
    (featureName clickedFolder usecaseName packageName rootFolder : List Char) :
    List (List Char × List Char) :=
  templates.map (fun pc =>
    (usecasePathRewrite pc.1 featureName clickedFolder usecaseName packageName rootFolder,
     usecaseContentRewrite pc.2 featureName clickedFolder usecaseName packageName rootFolder))

/-! ### Side conditions used by the theorems -/

/-- The search term contains none of the five case-style labels, so
replaceName performs exactly its one unconditional global replaceAll. -/
def labelFree (s : List Char) : Bool :=
  !hasSub (str "lowerCase") s && !hasSub (str "upperCase") s && !hasSub (str "snakeCase") s
    && !hasSub (str "pascalCase") s && !hasSub (str "camelCase") s

/-- Tokens do not contain and do not overlap one another. -/
def indepTok (s1 s2 : List Char) : Bool :=
  !hasSub s1 s2 && !hasSub s2 s1 && !bridgeB s1 s2 && !bridgeB s2 s1

/-- A replacement value does not contain, is not contained in, and does
not overlap a token, so inserting it can neither contain nor create an
occurrence of the token. -/
def guardTok (r s : List Char) : Bool :=
  !hasSub s r && !hasSub r s && !bridgeB r s && !bridgeB s r

/-- Two single-pass rules do not interact: their tokens are independent
and neither replacement text interacts with the other rule's token. -/
def ruleOk (a b : List Char × List Char) : Bool :=
  indepTok a.1 b.1 && guardTok a.2 b.1 && guardTok b.2 a.1

/-- The replacement texts a replaceName call with this search term can
insert: the case-rendered value for each case-style label the term
contains (in branch order), then the raw value, which the final
unconditional pass always uses. -/
def passes (s r : List Char) : List (List Char) :=
  (if hasSub (str "lowerCase") s then [jsToLowerCase r] else []) ++
    (if hasSub (str "upperCase") s then [jsToUpperCase r] else []) ++
      (if hasSub (str "snakeCase") s then [snakeCase r] else []) ++
        (if hasSub (str "pascalCase") s then [pascalCase r] else []) ++
          (if hasSub (str "camelCase") s then [camelCase r] else []) ++ [r]

/-- Sequence of global replacements with one search term and a list of
replacement texts. -/
def applyPasses (s : List Char) (vs : List (List Char)) (t : List Char) : List Char :=
  vs.foldl (fun acc v => jsReplaceAll acc s v) t

/-- Two replaceName rules do not interact in any pass: their tokens are
independent, and every replacement text either rule can insert (raw or
case-rendered) is guarded against the other rule's token. -/
def ruleOkAll (a b : List Char × List Char) : Bool :=
  (passes a.1 a.2).all (fun v => (passes b.1 b.2).all (fun w => ruleOk (a.1, v) (b.1, w)))

/-- Pairwise check of a rule list against a binary rule condition. -/
def rulesPairwise (f : List Char × List Char → List Char × List Char → Bool) :
    List (List Char × List Char) → Bool
  | [] => true
  | a :: rest => rest.all (fun b => f a b) && rulesPairwise f rest

/-- The string contains no brace characters. -/
def noBrace (l : List Char) : Bool := l.all (fun c => c != '\x7b' && c != '\x7d')

/-- The string contains no dot. -/
def noDot (l : List Char) : Bool := l.all (fun c => c != '.')

theorem jsReplaceAll_if_id {t s v : List Char} (h : hasSub s t = false) (b : Bool) :
    (if b then jsReplaceAll t s v else t) = t := by
  cases b
  · rfl
  · simpa using jsReplaceAll_id (r := v) h

theorem replaceName_id {s t r : List Char} (h : hasSub s t = false) :
    replaceName t s r = t := by
  simp only [replaceName, jsReplaceAll_if_id h]
  exact jsReplaceAll_id h

theorem labelFree_spec {s : List Char} (h : labelFree s = true) :
    hasSub (str "lowerCase") s = false ∧ hasSub (str "upperCase") s = false ∧
    hasSub (str "snakeCase") s = false ∧ hasSub (str "pascalCase") s = false ∧
    hasSub (str "camelCase") s = false := by
  unfold labelFree at h
  simp only [Bool.and_eq_true, Bool.not_eq_true'] at h
  exact ⟨h.1.1.1.1, h.1.1.1.2, h.1.1.2, h.1.2, h.2⟩

theorem replaceName_labelFree {s : List Char} (t r : List Char) (h : labelFree s = true) :
    replaceName t s r = jsReplaceAll t s r := by
  obtain ⟨h1, h2, h3, h4, h5⟩ := labelFree_spec h
  simp only [replaceName, h1, h2, h3, h4, h5, Bool.false_eq_true, if_false]

/-! ### Relating camelCase and pascalCase (claim C6 machinery) -/

/-- A string with its first character lowercased (the operation the
specification compares camelCase against). -/
def lowerFirst : List Char → List Char
  | [] => []
  | c :: cs => Char.toLower c :: cs

theorem toNat_ofNat_valid {n : Nat} (h : n.isValidChar) : (Char.ofNat n).toNat = n := by
  unfold Char.ofNat
  rw [dif_pos h]
  unfold Char.ofNatAux
  simp [Char.toNat, UInt32.toNat]

theorem toLower_toUpper (c : Char) : c.toUpper.toLower = c.toLower := by
  unfold Char.toUpper Char.toLower
  by_cases h : c.toNat ≥ 97 ∧ c.toNat ≤ 122
  · rw [if_pos h]
    have hv : (c.toNat - 32).isValidChar := Or.inl (by omega)
    have ht : (Char.ofNat (c.toNat - 32)).toNat = c.toNat - 32 := toNat_ofNat_valid hv
    rw [ht]
    rw [if_pos (by omega)]
    rw [if_neg (by omega)]
    have harg : c.toNat - 32 + 32 = c.toNat := by omega
    rw [harg, Char.ofNat_toNat]
  · rw [if_neg h]

theorem splitSep_ne_nil : ∀ l : List Char, splitSep l ≠ [] := by
  intro l
  induction l with
  | nil => simp [splitSep]
  | cons c cs ih =>
    rw [splitSep]
    by_cases h : (c == sepC) = true
    · rw [if_pos h]; simp
    · rw [if_neg h]
      cases hsp : splitSep cs with
      | nil => simp
      | cons w ws => simp

theorem dropWhile_head (p : Char → Bool) :
    ∀ l : List Char, l.dropWhile p = [] ∨
      ∃ c cs, l.dropWhile p = c :: cs ∧ p c = false := by
  intro l
  induction l with
  | nil => exact Or.inl rfl
  | cons c cs ih =>
    rw [List.dropWhile]
    cases hp : p c
    · exact Or.inr ⟨c, cs, rfl, hp⟩
    · exact ih

theorem wordsOf_head_empty {s : List Char} {rest : List (List Char)}
    (h : wordsOf s = [] :: rest) : rest = [] := by
  unfold wordsOf trimSep at h
  rcases dropWhile_head (fun c => c == sepC)
      (dropTrailSep (stripJunk (splitPass2 (splitPass1 s)))) with hnil | ⟨c, cs, heq, hc⟩
  · rw [hnil] at h
    rw [splitSep] at h
    injection h with _ h2
    exact h2.symm
  · rw [heq] at h
    rw [splitSep, if_neg (by simp [hc] : ¬ (c == sepC) = true)] at h
    cases hsp : splitSep cs with
    | nil =>
      rw [hsp] at h
      injection h with h1 _
      simp at h1
    | cons w ws =>
      rw [hsp] at h
      injection h with h1 _
      simp at h1

theorem mapWithIdx_camel_pascal :
    ∀ (ws : List (List Char)) (i : Nat), i ≠ 0 →
      mapWithIdx camelCaseTransform i ws = mapWithIdx pascalCaseTransform i ws := by
  intro ws
  induction ws with
  | nil => intro i _; rfl
  | cons w rest ih =>
    intro i hi
    rw [mapWithIdx, mapWithIdx]
    rw [camelCaseTransform, if_neg hi]
    rw [ih (i + 1) (by omega)]

theorem joinDelim_nil_cons (w : List Char) (ws : List (List Char)) :
    joinDelim [] (w :: ws) = w ++ joinDelim [] ws := by
  cases ws with
  | nil => simp [joinDelim]
  | cons w2 ws2 => simp [joinDelim]

/-! ### Brace-grammar facts (claim C4 machinery) -/

theorem noBrace_cons {c : Char} {cs : List Char} (h : noBrace (c :: cs) = true) :
    c ≠ '\x7b' ∧ c ≠ '\x7d' ∧ noBrace cs = true := by
  simp only [noBrace, List.all_cons, Bool.and_eq_true, bne_iff_ne, ne_eq] at h
  exact ⟨h.1.1, h.1.2, by simpa [noBrace] using h.2⟩

theorem hasSub_headBrace (tail : List Char) :
    ∀ z, noBrace z = true → hasSub ('\x7b' :: tail) z = false := by
  intro z
  induction z with
  | nil => intro _; rfl
  | cons c cs ih =>
    intro h
    obtain ⟨hc1, _, hcs⟩ := noBrace_cons h
    rw [hasSub]
    have hm : headMatch ('\x7b' :: tail) (c :: cs) = false := by
      rw [headMatch]
      have hne : ('\x7b' == c) = false := beq_eq_false_iff_ne.mpr (Ne.symm hc1)
      simp [hne]
    rw [hm, ih hcs]
    rfl

theorem hm_token_words {b : List Char} :
    ∀ w u, noBrace w = true → noBrace u = true → w ≠ u →
      headMatch (w ++ ['\x7d', '\x7d']) (u ++ '\x7d' :: '\x7d' :: b) = false := by
  intro w
  induction w with
  | nil =>
    intro u _ hu hne
    cases u with
    | nil => exact absurd rfl hne
    | cons e u' =>
      obtain ⟨_, he2, _⟩ := noBrace_cons hu
      simp only [List.nil_append, List.cons_append, headMatch]
      have hne2 : ('\x7d' == e) = false := beq_eq_false_iff_ne.mpr (Ne.symm he2)
      simp [hne2]
  | cons d w' ih =>
    intro u hw hu hne
    obtain ⟨_, hd2, hw'⟩ := noBrace_cons hw
    cases u with
    | nil =>
      simp only [List.cons_append, List.nil_append, headMatch]
      have hd : (d == '\x7d') = false := beq_eq_false_iff_ne.mpr hd2
      simp [hd]
    | cons e u' =>
      obtain ⟨_, _, hu'⟩ := noBrace_cons hu
      simp only [List.cons_append, headMatch]
      by_cases hde : d = e
      · subst hde
        have hne' : w' ≠ u' := fun hh => hne (by rw [hh])
        simp [List.append_eq, ih u' hw' hu' hne']
      · have hd : (d == e) = false := beq_eq_false_iff_ne.mpr hde
        simp [hd]

theorem hm_token_mid {tail b u : List Char} (hu : noBrace u = true) :
    headMatch ('\x7b' :: '\x7b' :: tail) ('\x7b' :: (u ++ '\x7d' :: '\x7d' :: b)) = false := by
  cases u with
  | nil => simp [headMatch]
  | cons e u' =>
    obtain ⟨he1, _, _⟩ := noBrace_cons hu
    simp only [List.cons_append, headMatch]
    have hne : ('\x7b' == e) = false := beq_eq_false_iff_ne.mpr (Ne.symm he1)
    simp [hne]

theorem hasSub_token_tail {tail b : List Char} (hb : noBrace b = true) :
    ∀ u, noBrace u = true →
      hasSub ('\x7b' :: '\x7b' :: tail) (u ++ '\x7d' :: '\x7d' :: b) = false := by
  intro u
  induction u with
  | nil =>
    intro _
    simp only [List.nil_append]
    rw [hasSub]
    have hm1 : headMatch ('\x7b' :: '\x7b' :: tail) ('\x7d' :: '\x7d' :: b) = false := by
      simp [headMatch]
    rw [hm1, hasSub]
    have hm2 : headMatch ('\x7b' :: '\x7b' :: tail) ('\x7d' :: b) = false := by
      simp [headMatch]
    rw [hm2, hasSub_headBrace ('\x7b' :: tail) b hb]
    rfl
  | cons e u' ih =>
    intro hu
    obtain ⟨he1, _, hu'⟩ := noBrace_cons hu
    rw [List.cons_append, hasSub]
    have hm : headMatch ('\x7b' :: '\x7b' :: tail) (e :: (u' ++ '\x7d' :: '\x7d' :: b)) = false := by
      rw [headMatch]
      have hne : ('\x7b' == e) = false := beq_eq_false_iff_ne.mpr (Ne.symm he1)
      simp [hne]
    rw [hm, ih hu']
    rfl

/-- A brace-delimited token whose inner text differs from u cannot occur
anywhere in a text whose only braces are the single well-formed token
around u. -/
theorem tok_not_in_text {b u w : List Char} (hb : noBrace b = true) (hu : noBrace u = true)
    (hw : noBrace w = true) (hne : w ≠ u) :
    ∀ a, noBrace a = true →
      hasSub ('\x7b' :: '\x7b' :: (w ++ ['\x7d', '\x7d']))
        (a ++ '\x7b' :: '\x7b' :: (u ++ '\x7d' :: '\x7d' :: b)) = false := by
  intro a
  induction a with
  | nil =>
    intro _
    simp only [List.nil_append]
    rw [hasSub]
    have hm0 : headMatch ('\x7b' :: '\x7b' :: (w ++ ['\x7d', '\x7d']))
        ('\x7b' :: '\x7b' :: (u ++ '\x7d' :: '\x7d' :: b)) = false := by
      simp only [headMatch, beq_self_eq_true, Bool.true_and]
      exact hm_token_words w u hw hu hne
    rw [hm0, hasSub]
    rw [hm_token_mid hu]
    rw [hasSub_token_tail hb u hu]
    rfl
  | cons c a' ih =>
    intro ha
    obtain ⟨hc1, _, ha'⟩ := noBrace_cons ha
    rw [List.cons_append, hasSub]
    have hm : headMatch ('\x7b' :: '\x7b' :: (w ++ ['\x7d', '\x7d']))
        (c :: (a' ++ '\x7b' :: '\x7b' :: (u ++ '\x7d' :: '\x7d' :: b))) = false := by
      rw [headMatch]
      have hne2 : ('\x7b' == c) = false := beq_eq_false_iff_ne.mpr (Ne.symm hc1)
      simp [hne2]
    rw [hm, ih ha']
    rfl

theorem str_lbb : str "\x7b\x7b" = ['\x7b', '\x7b'] := rfl

theorem str_rbb : str "\x7d\x7d" = ['\x7d', '\x7d'] := rfl

theorem tokOf_eq (u : List Char) : tokOf u = '\x7b' :: '\x7b' :: (u ++ ['\x7d', '\x7d']) := rfl

theorem tokStyled_eq (k l : List Char) :
    tokStyled k l = '\x7b' :: '\x7b' :: ((k ++ '.' :: l) ++ ['\x7d', '\x7d']) := by
  rw [tokStyled, str_lbb, str_rbb]
  simp

/-- Rewrite-rule tokens generated from keys distinct from u never occur
in a text that is brace-free except for the single token around u. -/
theorem rule_token_not_in {a b u keyW : List Char} (ha : noBrace a = true)
    (hb : noBrace b = true) (hu : noBrace u = true)
    (hkw : noBrace keyW = true) (hne : keyW ≠ u) :
    hasSub ('\x7b' :: '\x7b' :: (keyW ++ ['\x7d', '\x7d'])) (a ++ tokOf u ++ b) = false := by
  have htext : a ++ tokOf u ++ b = a ++ '\x7b' :: '\x7b' :: (u ++ '\x7d' :: '\x7d' :: b) := by
    rw [tokOf_eq]
    simp
  rw [htext]
  exact tok_not_in_text hb hu hkw hne a ha

/-! ### Pairwise rule independence (claim C5 machinery) -/

theorem ruleOk_spec {a b : List Char × List Char} (h : ruleOk a b = true) :
    hasSub a.1 b.1 = false ∧ hasSub b.1 a.1 = false ∧
    bridgeB a.1 b.1 = false ∧ bridgeB b.1 a.1 = false ∧
    hasSub b.1 a.2 = false ∧ hasSub a.2 b.1 = false ∧
    bridgeB a.2 b.1 = false ∧ bridgeB b.1 a.2 = false ∧
    hasSub a.1 b.2 = false ∧ hasSub b.2 a.1 = false ∧
    bridgeB b.2 a.1 = false ∧ bridgeB a.1 b.2 = false := by
  unfold ruleOk indepTok guardTok at h
  simp only [Bool.and_eq_true, Bool.not_eq_true'] at h
  obtain ⟨⟨⟨⟨⟨i1, i2⟩, i3⟩, i4⟩, ⟨⟨⟨g1, g2⟩, g3⟩, g4⟩⟩, ⟨⟨⟨k1, k2⟩, k3⟩, k4⟩⟩ := h
  exact ⟨i1, i2, i3, i4, g1, g2, g3, g4, k1, k2, k3, k4⟩

theorem jsReplaceAll_eq_replAux {s : List Char} (hs : s ≠ []) (t r : List Char) :
    jsReplaceAll t s r = replAux s r t := by
  rw [jsReplaceAll, if_neg hs]

theorem jsReplaceAll_comm {a b : List Char × List Char} (h : ruleOk a b = true)
    (t : List Char) :
    jsReplaceAll (jsReplaceAll t a.1 a.2) b.1 b.2 =
      jsReplaceAll (jsReplaceAll t b.1 b.2) a.1 a.2 := by
  obtain ⟨h1, h2, h3, h4, h5, h6, h7, h8, h9, h10, h11, h12⟩ := ruleOk_spec h
  have ha : a.1 ≠ [] := ne_nil_of_hasSub_false h1
  have hb : b.1 ≠ [] := ne_nil_of_hasSub_false h2
  rw [jsReplaceAll_eq_replAux ha t, jsReplaceAll_eq_replAux hb t,
      jsReplaceAll_eq_replAux hb, jsReplaceAll_eq_replAux ha]
  exact replAux_comm h1 h2 h3 h4 h5 h6 h7 h8 h9 h10 h11 h12 t

theorem rulesPairwise_pair {f : List Char × List Char → List Char × List Char → Bool} :
    ∀ {L : List (List Char × List Char)}, rulesPairwise f L = true →
      ∀ {a b}, a ∈ L → b ∈ L → a ≠ b → f a b = true ∨ f b a = true := by
  intro L
  induction L with
  | nil =>
    intro _ a b ha
    simp at ha
  | cons x rest ih =>
    intro h a b ha hb hne
    rw [rulesPairwise] at h
    have h' := h
    simp only [Bool.and_eq_true] at h'
    obtain ⟨hall, hrest⟩ := h'
    rcases List.mem_cons.mp ha with rfl | ha'
    · rcases List.mem_cons.mp hb with rfl | hb'
      · exact absurd rfl hne
      · exact Or.inl (List.all_eq_true.mp hall b hb')
    · rcases List.mem_cons.mp hb with rfl | hb'
      · exact Or.inr (List.all_eq_true.mp hall a ha')
      · exact ih hrest ha' hb' hne

theorem applyPasses_cons (s v : List Char) (vs : List (List Char)) (t : List Char) :
    applyPasses s (v :: vs) t = applyPasses s vs (jsReplaceAll t s v) := rfl

theorem applyPasses_condAppend (s : List Char) (c : Bool) (v : List Char)
    (vs : List (List Char)) (t : List Char) :
    applyPasses s ((if c then [v] else []) ++ vs) t =
      applyPasses s vs (if c then jsReplaceAll t s v else t) := by
  cases c <;> simp [applyPasses]

/-- replaceName is exactly the sequence of global replacements over the
replacement texts of its passes. -/
theorem replaceName_eq_applyPasses (t s r : List Char) :
    replaceName t s r = applyPasses s (passes s r) t := by
  simp only [passes, List.append_assoc]
  rw [applyPasses_condAppend, applyPasses_condAppend, applyPasses_condAppend,
      applyPasses_condAppend, applyPasses_condAppend]
  simp only [replaceName, applyPasses, List.foldl_cons, List.foldl_nil]

theorem jsReplace_applyPasses_comm {s1 s2 w : List Char} :
    ∀ vs, (∀ v ∈ vs, ruleOk (s1, v) (s2, w) = true) →
      ∀ t, jsReplaceAll (applyPasses s1 vs t) s2 w = applyPasses s1 vs (jsReplaceAll t s2 w) := by
  intro vs
  induction vs with
  | nil =>
    intro _ t
    rfl
  | cons v vs ih =>
    intro h t
    rw [applyPasses_cons, applyPasses_cons]
    rw [ih (fun v' hv' => h v' (List.mem_cons_of_mem v hv'))]
    rw [jsReplaceAll_comm (h v (List.mem_cons_self v vs)) t]

theorem applyPasses_comm {s1 s2 : List Char} :
    ∀ ws vs, (∀ v ∈ vs, ∀ w ∈ ws, ruleOk (s1, v) (s2, w) = true) →
      ∀ t, applyPasses s2 ws (applyPasses s1 vs t) =
        applyPasses s1 vs (applyPasses s2 ws t) := by
  intro ws
  induction ws with
  | nil =>
    intro vs _ t
    rfl
  | cons w ws ih =>
    intro vs h t
    rw [applyPasses_cons, applyPasses_cons]
    rw [jsReplace_applyPasses_comm vs (fun v hv => h v hv w (List.mem_cons_self w ws)) t]
    rw [ih vs (fun v hv w' hw' => h v hv w' (List.mem_cons_of_mem w hw'))]

/-- Full replaceName applications of two non-interacting rules commute,
whatever case-style labels their tokens carry. -/
theorem replaceName_comm {a b : List Char × List Char} (h : ruleOkAll a b = true)
    (t : List Char) :
    replaceName (replaceName t a.1 a.2) b.1 b.2 =
      replaceName (replaceName t b.1 b.2) a.1 a.2 := by
  have h' := h
  unfold ruleOkAll at h'
  have hall : ∀ v ∈ passes a.1 a.2, ∀ w ∈ passes b.1 b.2,
      ruleOk (a.1, v) (b.1, w) = true := by
    intro v hv w hw
    have h1 := List.all_eq_true.mp h' v hv
    have h2 := List.all_eq_true.mp (by simpa using h1) w hw
    simpa using h2
  rw [replaceName_eq_applyPasses, replaceName_eq_applyPasses,
      replaceName_eq_applyPasses, replaceName_eq_applyPasses]
  exact applyPasses_comm (passes b.1 b.2) (passes a.1 a.2) hall t

theorem foldl_perm_of_comm {α : Type} (f : List Char → α → List Char) :
    ∀ {l l' : List α}, l.Perm l' →
      (∀ x ∈ l, ∀ y ∈ l, ∀ z, f (f z x) y = f (f z y) x) →
      ∀ z, l.foldl f z = l'.foldl f z := by
  intro l l' p
  induction p with
  | nil =>
    intro _ z
    rfl
  | cons x p ih =>
    intro h z
    simp only [List.foldl_cons]
    exact ih
      (fun u hu v hv z' => h u (List.mem_cons_of_mem x hu) v (List.mem_cons_of_mem x hv) z')
      (f z x)
  | swap x y l =>
    intro h z
    simp only [List.foldl_cons]
    rw [h y (by simp) x (by simp) z]
  | trans p1 p2 ih1 ih2 =>
    intro h z
    rw [ih1 h z]
    exact ih2 (fun u hu v hv z' => h u (p1.mem_iff.mpr hu) v (p1.mem_iff.mpr hv) z') z

/-! ### Walker specification (claim C8 machinery) -/

/-- Size measure of a forest of filesystem entries. -/
def entsSize : List FsEntry → Nat
  | [] => 0
  | .file _ :: rest => 1 + entsSize rest
  | .dir _ cs :: rest => 1 + entsSize cs + entsSize rest

theorem getAllT_spec_aux :
    ∀ n es, entsSize es ≤ n → ∀ p,
      getAllT p es =
        ((allFilesT p es).filter (fun pr => endsWith (str ".template") pr.2)).map Prod.fst := by
  intro n
  induction n with
  | zero =>
    intro es h p
    cases es with
    | nil => simp [getAllT, allFilesT]
    | cons e rest =>
      exfalso
      cases e <;> (simp [entsSize] at h)
  | succ n ih =>
    intro es h p
    cases es with
    | nil => simp [getAllT, allFilesT]
    | cons e rest =>
      cases e with
      | file nm =>
        have hr : entsSize rest ≤ n := by
          simp only [entsSize] at h
          omega
        by_cases hend : endsWith (str ".template") nm = true
        · simp [getAllT, allFilesT, List.filter_cons, hend, ih rest hr p]
        · simp only [Bool.not_eq_true] at hend
          simp [getAllT, allFilesT, List.filter_cons, hend, ih rest hr p]
      | dir nm cs =>
        have h1 : entsSize cs ≤ n := by
          simp only [entsSize] at h
          omega
        have h2 : entsSize rest ≤ n := by
          simp only [entsSize] at h
          omega
        simp only [getAllT, allFilesT, List.filter_append, List.map_append]
        rw [ih cs h1, ih rest h2]

theorem getAllT_spec (p : List Char) (es : List FsEntry) :
    getAllT p es =
      ((allFilesT p es).filter (fun pr => endsWith (str ".template") pr.2)).map Prod.fst :=
  getAllT_spec_aux (entsSize es) es le_rfl p

/-! ### The claims -/

/-- C1 (counterexample): the claim asserts that replacement text inserted
by one rule is never re-scanned for later rules' tokens in the same pass.
The code applies the rules sequentially over the whole working string, so
rewriting "\x7b\x7ba\x7d\x7d" with the rule list
[(\x7b\x7ba\x7d\x7d → \x7b\x7bb\x7d\x7d), (\x7b\x7bb\x7d\x7d → X)] yields "X":
the occurrence of the second token inserted by the first rule IS replaced
by the second rule, while the claim predicts the result "\x7b\x7bb\x7d\x7d". -/
theorem claim_C1_counterexample :
    applyRules [(str "\x7b\x7ba\x7d\x7d", str "\x7b\x7bb\x7d\x7d"),
                (str "\x7b\x7bb\x7d\x7d", str "X")] (str "\x7b\x7ba\x7d\x7d") = str "X" ∧
    str "X" ≠ str "\x7b\x7bb\x7d\x7d" := by
  constructor
  · decide
  · decide

/-- C1 (amended): each single rule's application replaces every occurrence
of its literal token in one global pass and does not re-scan its own
inserted replacement (under non-interaction side conditions no occurrence
of the token remains, and concretely a replacement containing the rule's
own token survives verbatim); but text inserted by a rule is re-scanned
by the later rules of the same pass. -/
theorem claim_C1_theorem (t s r : List Char) (hlab : labelFree s = true)
    (h1 : hasSub s r = false) (h2 : hasSub r s = false)
    (h3 : bridgeB r s = false) (h4 : bridgeB s r = false) :
    hasSub s (replaceName t s r) = false ∧
    jsReplaceAll (str "x\x7b\x7ba\x7d\x7dy") (str "\x7b\x7ba\x7d\x7d")
        (str "(\x7b\x7ba\x7d\x7d)") = str "x(\x7b\x7ba\x7d\x7d)y" := by
  constructor
  · rw [replaceName_labelFree t r hlab, jsReplaceAll_eq_replAux (ne_nil_of_hasSub_false h1)]
    exact replAux_elim h1 h2 h3 h4 t
  · decide

theorem claim_C1_witness :
    labelFree (str "\x7b\x7bfeature_name\x7d\x7d") = true ∧
    hasSub (str "\x7b\x7bfeature_name\x7d\x7d") (str "auth") = false ∧
    hasSub (str "\x7b\x7bfeature_name\x7d\x7d")
      (replaceName (str "A \x7b\x7bfeature_name\x7d\x7d B \x7b\x7bfeature_name\x7d\x7d C")
        (str "\x7b\x7bfeature_name\x7d\x7d") (str "auth")) = false :=
  ⟨by decide, by decide,
   (claim_C1_theorem _ _ _ (by decide) (by decide) (by decide) (by decide) (by decide)).1⟩

/-- C2: rewriting the end-to-end scenario content with the binding set
feature_name = authentication, usecase_name = login_user,
package_name = my_app through the content-rewriting routine yields
exactly the expected import line. -/
theorem claim_C2 :
    replacePlaceholdersInContent
      (str "import \x27package:\x7b\x7bpackage_name\x7d\x7d/src/\x7b\x7bfeature_name.snakeCase\x7d\x7d/domain/usecases/\x7b\x7busecase_name.snakeCase\x7d\x7d_usecase.dart\x27;")
      [(str "feature_name", str "authentication"),
       (str "usecase_name", str "login_user"),
       (str "package_name", str "my_app")] =
    str "import \x27package:my_app/src/authentication/domain/usecases/login_user_usecase.dart\x27;" := by
  decide

/-- C5 (counterexample): the two rule tokens \x7b\x7ba\x7d\x7d and
\x7b\x7bb\x7d\x7d are pairwise disjoint (neither is a substring of the
other), yet applying the two rules in the two possible orders to the text
"\x7b\x7ba\x7d\x7d" produces different final strings, because the first
rule's replacement value contains the second rule's token. -/
theorem claim_C5_counterexample :
    hasSub (str "\x7b\x7ba\x7d\x7d") (str "\x7b\x7bb\x7d\x7d") = false ∧
    hasSub (str "\x7b\x7bb\x7d\x7d") (str "\x7b\x7ba\x7d\x7d") = false ∧
    applyRules [(str "\x7b\x7ba\x7d\x7d", str "\x7b\x7bb\x7d\x7d"),
                (str "\x7b\x7bb\x7d\x7d", str "X")] (str "\x7b\x7ba\x7d\x7d") ≠
      applyRules [(str "\x7b\x7bb\x7d\x7d", str "X"),
                  (str "\x7b\x7ba\x7d\x7d", str "\x7b\x7bb\x7d\x7d")] (str "\x7b\x7ba\x7d\x7d") := by
  refine ⟨by decide, by decide, by decide⟩

/-- C5 (amended): rewriting is order-independent provided, beyond pairwise
non-substring tokens, the rules do not interact in any replacement pass:
tokens neither contain nor overlap each other, and none of the
replacement texts a rule can insert — the raw value together with the
case-rendered values for each case-style label its token contains —
contains, is contained in, or overlaps another rule's literal token.
Under those conditions every permutation of the rule list produces the
same final string for every input text, case-styled tokens included. -/
theorem claim_C5_theorem (rules rules' : List (List Char × List Char)) (t : List Char)
    (hperm : rules.Perm rules')
    (hind : rulesPairwise ruleOkAll rules = true) :
    applyRules rules t = applyRules rules' t := by
  unfold applyRules
  apply foldl_perm_of_comm _ hperm _ t
  intro x hx y hy z
  by_cases hxy : x = y
  · rw [hxy]
  · rcases rulesPairwise_pair hind hx hy hxy with hok | hok
    · exact replaceName_comm hok z
    · exact (replaceName_comm hok z).symm

theorem claim_C5_witness :
    rulesPairwise ruleOkAll
        [(str "\x7b\x7bfeature_name.snakeCase\x7d\x7d", str "MyAuth"),
         (str "\x7b\x7busecase_name\x7d\x7d", str "login")] = true ∧
    applyRules [(str "\x7b\x7bfeature_name.snakeCase\x7d\x7d", str "MyAuth"),
                (str "\x7b\x7busecase_name\x7d\x7d", str "login")]
        (str "\x7b\x7bfeature_name.snakeCase\x7d\x7d/\x7b\x7busecase_name\x7d\x7d") =
      applyRules [(str "\x7b\x7busecase_name\x7d\x7d", str "login"),
                  (str "\x7b\x7bfeature_name.snakeCase\x7d\x7d", str "MyAuth")]
        (str "\x7b\x7bfeature_name.snakeCase\x7d\x7d/\x7b\x7busecase_name\x7d\x7d") :=
  ⟨by decide,
   claim_C5_theorem _ _ _
     (List.Perm.swap (str "\x7b\x7busecase_name\x7d\x7d", str "login")
       (str "\x7b\x7bfeature_name.snakeCase\x7d\x7d", str "MyAuth") [])
     (by decide)⟩

/-- C6: for every string s, the camelCase transform of s equals the
pascalCase transform of s with its first character lowercased. -/
theorem claim_C6 (s : List Char) : camelCase s = lowerFirst (pascalCase s) := by
  unfold camelCase pascalCase
  rcases hw : wordsOf s with _ | ⟨w, rest⟩
  · exfalso
    rw [wordsOf] at hw
    exact splitSep_ne_nil _ hw
  · rw [mapWithIdx, mapWithIdx]
    rw [mapWithIdx_camel_pascal rest 1 (by omega)]
    rw [joinDelim_nil_cons, joinDelim_nil_cons]
    cases w with
    | nil =>
      have hrest : rest = [] := wordsOf_head_empty hw
      subst hrest
      simp [camelCaseTransform, pascalCaseTransform, jsToLowerCase, lowerFirst,
        mapWithIdx, joinDelim]
    | cons c w' =>
      have hcam : camelCaseTransform (c :: w') 0 = jsToLowerCase (c :: w') := by
        simp [camelCaseTransform]
      have hpas : pascalCaseTransform (c :: w') 0 = Char.toUpper c :: jsToLowerCase w' := by
        simp [pascalCaseTransform]
      rw [hcam, hpas]
      simp [jsToLowerCase, lowerFirst, toLower_toUpper]

/-- C7: a failure while processing one artifact of the batch neither
aborts the remaining artifacts nor contributes to the returned per-run
count, and the failed artifact is collected among the reported errors:
the count over pre ++ [bad] ++ post equals the count over pre plus the
count over post, and bad appears in the report list. -/
theorem claim_C7 (process : List Char → Option (List Char))
    (pre post : List (List Char)) (bad : List Char) (hbad : process bad = none) :
    (copyInitialTemplatesFromFolder process (pre ++ bad :: post)).1 =
      (copyInitialTemplatesFromFolder process pre).1 +
        (copyInitialTemplatesFromFolder process post).1 ∧
    bad ∈ (copyInitialTemplatesFromFolder process (pre ++ bad :: post)).2 := by
  induction pre with
  | nil =>
    constructor
    · simp [copyInitialTemplatesFromFolder, hbad]
    · simp [copyInitialTemplatesFromFolder, hbad]
  | cons f fs ih =>
    simp only [List.cons_append]
    cases hpf : process f with
    | some v =>
      constructor
      · simp only [copyInitialTemplatesFromFolder, hpf]
        have h1 := ih.1
        omega
      · simp only [copyInitialTemplatesFromFolder, hpf]
        exact ih.2
    | none =>
      constructor
      · simp only [copyInitialTemplatesFromFolder, hpf]
        have h1 := ih.1
        omega
      · simp only [copyInitialTemplatesFromFolder, hpf]
        exact List.mem_cons_of_mem f ih.2

theorem claim_C7_witness :
    ((fun f => if f = str "bad.template" then (none : Option (List Char)) else some f)
        (str "bad.template") = none) ∧
    ((copyInitialTemplatesFromFolder
        (fun f => if f = str "bad.template" then (none : Option (List Char)) else some f)
        ([str "a.template"] ++ str "bad.template" :: [str "b.template"])).1 =
      (copyInitialTemplatesFromFolder
        (fun f => if f = str "bad.template" then (none : Option (List Char)) else some f)
        [str "a.template"]).1 +
      (copyInitialTemplatesFromFolder
        (fun f => if f = str "bad.template" then (none : Option (List Char)) else some f)
        [str "b.template"]).1) ∧
    str "bad.template" ∈ (copyInitialTemplatesFromFolder
        (fun f => if f = str "bad.template" then (none : Option (List Char)) else some f)
        ([str "a.template"] ++ str "bad.template" :: [str "b.template"])).2 :=
  ⟨by decide, (claim_C7 _ _ _ _ (by decide)).1, (claim_C7 _ _ _ _ (by decide)).2⟩

/-- C8: walking a non-existent source root returns the empty sequence
without error, and walking an existing root yields exactly the files of
the tree whose names end in .template, recursing into every
subdirectory. -/
theorem claim_C8 :
    (∀ p, getAllTemplateFiles p none = []) ∧
    (∀ p es, getAllTemplateFiles p (some es) =
      ((allFilesT p es).filter (fun pr => endsWith (str ".template") pr.2)).map Prod.fst) := by
  constructor
  · intro p
    rfl
  · intro p es
    exact getAllT_spec p es

/-- C9: replaceName selects the case transform by substring inspection of
the whole token text, so a token whose variable name merely contains the
label lowerCase (with no dot suffix, e.g. \x7b\x7blowerCaseName\x7d\x7d)
has every occurrence replaced with the lowercased value instead of the
raw identity value. -/
theorem claim_C9 (t v tok : List Char)
    (hL : hasSub (str "lowerCase") tok = true)
    (hU : hasSub (str "upperCase") tok = false)
    (hS : hasSub (str "snakeCase") tok = false)
    (hP : hasSub (str "pascalCase") tok = false)
    (hC : hasSub (str "camelCase") tok = false)
    (helim : hasSub tok (jsReplaceAll t tok (jsToLowerCase v)) = false) :
    replaceName t tok v = jsReplaceAll t tok (jsToLowerCase v) := by
  simp only [replaceName, hL, hU, hS, hP, hC, Bool.false_eq_true, if_false, if_true]
  exact jsReplaceAll_id helim

theorem claim_C9_witness :
    hasSub (str "lowerCase") (str "\x7b\x7blowerCaseName\x7d\x7d") = true ∧
    replaceName (str "a \x7b\x7blowerCaseName\x7d\x7d b") (str "\x7b\x7blowerCaseName\x7d\x7d")
        (str "MyValue") = str "a myvalue b" :=
  ⟨by decide,
   (claim_C9 _ _ _ (by decide) (by decide) (by decide) (by decide) (by decide)
      (by decide)).trans (by decide)⟩

/-- C10: during content materialization every occurrence of the literal
text package:gymtor/ is rewritten to package: followed by the package
name and /, although no placeholder token is present there: under
non-interaction side conditions no occurrence of the literal remains
after fixDartImports, and the concrete import line is rewritten as
described. -/
theorem claim_C10 (content packageName : List Char)
    (h1 : hasSub (str "package:gymtor/") (str "package:" ++ packageName ++ str "/") = false)
    (h2 : hasSub (str "package:" ++ packageName ++ str "/") (str "package:gymtor/") = false)
    (h3 : bridgeB (str "package:" ++ packageName ++ str "/") (str "package:gymtor/") = false)
    (h4 : bridgeB (str "package:gymtor/") (str "package:" ++ packageName ++ str "/") = false) :
    hasSub (str "package:gymtor/") (fixDartImports content packageName) = false ∧
    fixDartImports (str "import \x27package:gymtor/core/api.dart\x27;") (str "my_app") =
      str "import \x27package:my_app/core/api.dart\x27;" := by
  constructor
  · rw [fixDartImports, jsReplaceAll_eq_replAux (by decide)]
    exact replAux_elim h1 h2 h3 h4 content
  · decide

theorem claim_C10_witness :
    hasSub (str "package:gymtor/") (str "package:" ++ str "my_app" ++ str "/") = false ∧
    hasSub (str "package:gymtor/")
      (fixDartImports (str "import \x27package:gymtor/core/api.dart\x27;") (str "my_app")) =
        false :=
  ⟨by decide,
   (claim_C10 (str "import \x27package:gymtor/core/api.dart\x27;") (str "my_app")
      (by decide) (by decide) (by decide) (by decide)).1⟩

theorem tokOf_not_in {a b u k : List Char} (ha : noBrace a = true) (hb : noBrace b = true)
    (hu : noBrace u = true) (hk : noBrace k = true) (hne : k ≠ u) :
    hasSub (tokOf k) (a ++ tokOf u ++ b) = false := by
  rw [tokOf_eq k]
  exact rule_token_not_in ha hb hu hk hne

theorem tokStyled_not_in {a b u k lbl : List Char} (ha : noBrace a = true)
    (hb : noBrace b = true) (hu : noBrace u = true) (hud : noDot u = true)
    (hk : noBrace k = true) (hlbl : noBrace lbl = true) :
    hasSub (tokStyled k lbl) (a ++ tokOf u ++ b) = false := by
  rw [tokStyled_eq]
  apply rule_token_not_in ha hb hu
  · simp only [noBrace, List.all_append, List.all_cons, Bool.and_eq_true] at hk hlbl ⊢
    exact ⟨hk, by decide, hlbl⟩
  · intro hcontra
    have hdot : '.' ∈ u := by
      rw [← hcontra]
      exact List.mem_append_right k (List.mem_cons_self '.' lbl)
    have h2 := List.all_eq_true.mp hud '.' hdot
    simp at h2

/-- C4: a placeholder token whose variable name u is not among the binding
set's keys is left character-for-character unexpanded in the output, and
the rewriting is a total function so this situation raises no error: for
a template text a ++ \x7b\x7bu\x7d\x7d ++ b whose only braces are the
token's own, rewriting with any binding set whose keys are brace-free and
differ from u returns the text unchanged. -/
theorem claim_C4_theorem (a b u : List Char) (placeholders : List (List Char × List Char))
    (ha : noBrace a = true) (hb : noBrace b = true) (hu : noBrace u = true)
    (hud : noDot u = true)
    (hkeys : ∀ kv ∈ placeholders, noBrace kv.1 = true ∧ kv.1 ≠ u) :
    replacePlaceholdersInContent (a ++ tokOf u ++ b) placeholders = a ++ tokOf u ++ b := by
  induction placeholders with
  | nil => rfl
  | cons kv rest ih =>
    have hk := hkeys kv (List.mem_cons_self kv rest)
    have e1 : replaceName (a ++ tokOf u ++ b) (tokOf kv.1) kv.2 = a ++ tokOf u ++ b :=
      replaceName_id (tokOf_not_in ha hb hu hk.1 hk.2)
    have e2 : replaceName (a ++ tokOf u ++ b) (tokStyled kv.1 (str "lowerCase")) kv.2 =
        a ++ tokOf u ++ b :=
      replaceName_id (tokStyled_not_in ha hb hu hud hk.1 (by decide))
    have e3 : replaceName (a ++ tokOf u ++ b) (tokStyled kv.1 (str "upperCase")) kv.2 =
        a ++ tokOf u ++ b :=
      replaceName_id (tokStyled_not_in ha hb hu hud hk.1 (by decide))
    have e4 : replaceName (a ++ tokOf u ++ b) (tokStyled kv.1 (str "snakeCase")) kv.2 =
        a ++ tokOf u ++ b :=
      replaceName_id (tokStyled_not_in ha hb hu hud hk.1 (by decide))
    have e5 : replaceName (a ++ tokOf u ++ b) (tokStyled kv.1 (str "pascalCase")) kv.2 =
        a ++ tokOf u ++ b :=
      replaceName_id (tokStyled_not_in ha hb hu hud hk.1 (by decide))
    have e6 : replaceName (a ++ tokOf u ++ b) (tokStyled kv.1 (str "camelCase")) kv.2 =
        a ++ tokOf u ++ b :=
      replaceName_id (tokStyled_not_in ha hb hu hud hk.1 (by decide))
    have ihr := ih (fun kv' h' => hkeys kv' (List.mem_cons_of_mem kv h'))
    unfold replacePlaceholdersInContent at ihr ⊢
    rw [List.foldl_cons]
    simp only []
    rw [e1, e2, e3, e4, e5, e6]
    exact ihr

theorem claim_C4_witness :
    noBrace (str "import ") = true ∧ noDot (str "unknown_name") = true ∧
    replacePlaceholdersInContent
        (str "import " ++ tokOf (str "unknown_name") ++ str " end")
        [(str "feature_name", str "Auth"), (str "package_name", str "my_app")] =
      str "import " ++ tokOf (str "unknown_name") ++ str " end" :=
  ⟨by decide, by decide,
   claim_C4_theorem _ _ _ _ (by decide) (by decide) (by decide) (by decide) (by decide)⟩

/-- C3: materializing a template batch containing the single file
foo/\x7b\x7busecase_name.snakeCase\x7d\x7d_usecase.template with the
binding usecase_name = LoginUser produces exactly one output file, at
destination path foo/login_user_usecase.dart (snakeCase renders
login_user, the reserved .template suffix becomes .dart), whatever the
other binding values and the template content are, with the content
rewritten by the same rule set (illustrated by the concrete second
conjunct, where the token occurrence in the content is replaced). -/
theorem claim_C3_theorem (featureName clickedFolder packageName rootFolder c : List Char) :
    createUsecaseOutputs
        [(str "foo/\x7b\x7busecase_name.snakeCase\x7d\x7d_usecase.template", c)]
        featureName clickedFolder (str "LoginUser") packageName rootFolder =
      [(str "foo/login_user_usecase.dart",
        usecaseContentRewrite c featureName clickedFolder (str "LoginUser") packageName
          rootFolder)] ∧
    usecaseContentRewrite (str "class \x7b\x7busecase_name.pascalCase\x7d\x7dUsecase \x7b\x7d")
        (str "f") (str "cf") (str "LoginUser") (str "p") (str "r") =
      str "class LoginUserUsecase \x7b\x7d" := by
  constructor
  · have hpath : usecasePathRewrite
        (str "foo/\x7b\x7busecase_name.snakeCase\x7d\x7d_usecase.template")
        featureName clickedFolder (str "LoginUser") packageName rootFolder =
        str "foo/login_user_usecase.dart" := by
      have eA : ∀ (v s : List Char),
          hasSub s (str "foo/\x7b\x7busecase_name.snakeCase\x7d\x7d_usecase.template") = false →
          replaceName (str "foo/\x7b\x7busecase_name.snakeCase\x7d\x7d_usecase.template") s v =
            str "foo/\x7b\x7busecase_name.snakeCase\x7d\x7d_usecase.template" :=
        fun _ _ h => replaceName_id h
      have eB : ∀ (v s : List Char),
          hasSub s (str "foo/login_user_usecase.template") = false →
          replaceName (str "foo/login_user_usecase.template") s v =
            str "foo/login_user_usecase.template" :=
        fun _ _ h => replaceName_id h
      unfold usecasePathRewrite usecaseRules applyRules
      simp only [List.foldl_cons, List.foldl_nil]
      rw [eA featureName (tokOf (str "feature_name")) (by decide)]
      rw [eA clickedFolder (tokOf (str "custom_folder")) (by decide)]
      rw [eA (str "LoginUser") (tokOf (str "usecase_name")) (by decide)]
      rw [eA packageName (tokOf (str "package_name")) (by decide)]
      rw [eA rootFolder (tokOf (str "root_folder")) (by decide)]
      rw [eA featureName (tokStyled (str "feature_name") (str "lowerCase")) (by decide)]
      rw [eA clickedFolder (tokStyled (str "custom_folder") (str "lowerCase")) (by decide)]
      rw [eA (str "LoginUser") (tokStyled (str "usecase_name") (str "lowerCase")) (by decide)]
      rw [eA packageName (tokStyled (str "package_name") (str "lowerCase")) (by decide)]
      rw [eA rootFolder (tokStyled (str "root_folder") (str "lowerCase")) (by decide)]
      rw [eA featureName (tokStyled (str "feature_name") (str "upperCase")) (by decide)]
      rw [eA clickedFolder (tokStyled (str "custom_folder") (str "upperCase")) (by decide)]
      rw [eA (str "LoginUser") (tokStyled (str "usecase_name") (str "upperCase")) (by decide)]
      rw [eA packageName (tokStyled (str "package_name") (str "upperCase")) (by decide)]
      rw [eA rootFolder (tokStyled (str "root_folder") (str "upperCase")) (by decide)]
      rw [eA featureName (tokStyled (str "feature_name") (str "snakeCase")) (by decide)]
      rw [eA clickedFolder (tokStyled (str "custom_folder") (str "snakeCase")) (by decide)]
      rw [(by decide :
        replaceName (str "foo/\x7b\x7busecase_name.snakeCase\x7d\x7d_usecase.template")
          (tokStyled (str "usecase_name") (str "snakeCase")) (str "LoginUser") =
          str "foo/login_user_usecase.template")]
      rw [eB packageName (tokStyled (str "package_name") (str "snakeCase")) (by decide)]
      rw [eB rootFolder (tokStyled (str "root_folder") (str "snakeCase")) (by decide)]
      rw [eB featureName (tokStyled (str "feature_name") (str "pascalCase")) (by decide)]
      rw [eB clickedFolder (tokStyled (str "custom_folder") (str "pascalCase")) (by decide)]
      rw [eB (str "LoginUser") (tokStyled (str "usecase_name") (str "pascalCase")) (by decide)]
      rw [eB packageName (tokStyled (str "package_name") (str "pascalCase")) (by decide)]
      rw [eB rootFolder (tokStyled (str "root_folder") (str "pascalCase")) (by decide)]
      rw [eB featureName (tokStyled (str "feature_name") (str "camelCase")) (by decide)]
      rw [eB clickedFolder (tokStyled (str "custom_folder") (str "camelCase")) (by decide)]
      rw [eB (str "LoginUser") (tokStyled (str "usecase_name") (str "camelCase")) (by decide)]
      rw [eB packageName (tokStyled (str "package_name") (str "camelCase")) (by decide)]
      rw [eB rootFolder (tokStyled (str "root_folder") (str "camelCase")) (by decide)]
      decide
    unfold createUsecaseOutputs
    simp only [List.map_cons, List.map_nil]
    rw [hpath]
  · decide

end TddScaffold
